import Mathlib

/-!
Verification development for the e-commerce dashboard's aggregation core
(`compute_monthly_sales` and `compute_rfm` in `dashboard.py`).

Modelling conventions:
* A dataframe row is a `Row`; identifier columns are `Nat`-keyed, nullable
  columns are `Option`-typed (pandas `NaN`/`NaT` becomes `none`).
* Timestamps are modelled at day precision as days-since-epoch (`Nat`);
  `monthIdx` maps a day to its calendar month bucket (the grouping key of
  `pd.Grouper(freq="ME")`), via the standard civil-calendar conversion.
* Monetary values are exact rationals (`ℚ`), standing for the floats summed
  by pandas; `NaN` payments are skipped by pandas sums, modelled by `getD 0`.
* `pd.qcut(x, 4, labels, duplicates)` is modelled by `qcut4`: quantile edges
  by linear interpolation over the sorted values at probabilities
  0, 1/4, 1/2, 3/4, 1; duplicate edges either raise (default) or are dropped
  (`duplicates="drop"`); an explicit label list whose length does not match
  the final bin count raises; values are assigned to right-closed bins with
  the lowest value included in the first bin.
* `Series.rank(method="first")` is modelled by `rfirst`.
* Fallible steps return `Except String`; a pandas `ValueError` is `.error`.
-/

structure Row where
  order_id : Nat
  customer_unique_id : Option Nat
  order_purchase_timestamp : Option Nat
  payment_value : Option ℚ
deriving DecidableEq

/-- Calendar month bucket of a day count (days since 1970-01-01), as
`year * 12 + (month - 1)`; civil-from-days conversion. -/
def monthIdx (z : Nat) : Nat :=
  let d := z + 719468
  let era := d / 146097
  let doe := d % 146097
  let yoe := ((doe - doe / 1460) + doe / 36524 - doe / 146096) / 365
  let doy := doe - (365 * yoe + yoe / 4 - yoe / 100)
  let mp := (5 * doy + 2) / 153
  let m := if mp < 10 then mp + 3 else mp - 9
  let y := era * 400 + yoe + (if m ≤ 2 then 1 else 0)
  y * 12 + (m - 1)

/-- Rows usable by the monthly grouping: the `pd.Grouper` on
`order_purchase_timestamp` drops rows whose timestamp is missing.
Each kept row is reduced to `(order_id, month bucket, payment_value)`. -/
def tsRows (df : List Row) : List (Nat × Nat × Option ℚ) :=
  df.filterMap (fun r =>
    r.order_purchase_timestamp.map (fun t => (r.order_id, monthIdx t, r.payment_value)))

/-- The `(order_id, month)` group keys of the first `groupby` in
`compute_monthly_sales`. -/
def omKeys (df : List Row) : List (Nat × Nat) :=
  ((tsRows df).map (fun x => (x.1, x.2.1))).dedup

/-- The `total_payment` of one `(order_id, month)` group: the pandas `sum`
skips missing payment values. -/
def orderTotal (df : List Row) (k : Nat × Nat) : ℚ :=
  (((tsRows df).filter (fun x => (x.1, x.2.1) = k)).map (fun x => x.2.2.getD 0)).sum

structure MonthlyRow where
  order_purchase_timestamp : Nat
  total_orders : Nat
  total_revenue : ℚ
deriving DecidableEq

/-- Model of `compute_monthly_sales`: collapse payment rows per `(order_id, month)`,
then per month count distinct orders and sum the per-order totals,
sorted ascending by month. -/
def compute_monthly_sales (df : List Row) : List MonthlyRow :=
  let keys := omKeys df
  let months := List.insertionSort (· ≤ ·) ((keys.map (fun k => k.2)).dedup)
  months.map (fun m =>
    let ks := keys.filter (fun k => k.2 = m)
    { order_purchase_timestamp := m,
      total_orders := ((ks.map (fun k => k.1)).dedup).length,
      total_revenue := (ks.map (orderTotal df)).sum })

/-- Model of `rfm_data`: the three RFM columns with `dropna()` applied. -/
def rfm_data (df : List Row) : List (Nat × Nat × ℚ) :=
  df.filterMap (fun r =>
    match r.customer_unique_id, r.order_purchase_timestamp, r.payment_value with
    | some c, some t, some p => some (c, t, p)
    | _, _, _ => none)

def maxN (l : List Nat) : Nat := l.foldr max 0

/-- Group keys of `groupby("customer_unique_id")` (pandas sorts keys). -/
def customerKeys (d : List (Nat × Nat × ℚ)) : List Nat :=
  List.insertionSort (· ≤ ·) ((d.map (fun x => x.1)).dedup)

def fiberOf (d : List (Nat × Nat × ℚ)) (c : Nat) : List (Nat × Nat × ℚ) :=
  d.filter (fun x => x.1 = c)

structure RfmRow where
  cid : Nat
  last_purchase : Nat
  frequency : Nat
  monetary : ℚ
  recency : Int
deriving DecidableEq

def defRfmRow : RfmRow := ⟨0, 0, 0, 0, 0⟩

/-- Model of `reference_date`: one day after the maximum purchase timestamp of the
filtered input. -/
def referenceDate (d : List (Nat × Nat × ℚ)) : Int :=
  (maxN (d.map (fun x => x.2.1)) : Int) + 1

/-- Per-customer aggregation of `compute_rfm`: `last_purchase`, `frequency`,
`monetary`, and `recency` relative to the reference date. -/
def rfmBase (df : List Row) : List RfmRow :=
  let d := rfm_data df
  (customerKeys d).map (fun c =>
    let f := fiberOf d c
    { cid := c,
      last_purchase := maxN (f.map (fun x => x.2.1)),
      frequency := f.length,
      monetary := (f.map (fun x => x.2.2)).sum,
      recency := referenceDate d - (maxN (f.map (fun x => x.2.1)) : Int) })

/-- The customer table after dropping `monetary <= 0`. -/
def rfmFiltered (df : List Row) : List RfmRow :=
  (rfmBase df).filter (fun r => 0 < r.monetary)

/-- Linear-interpolation quantile of a sorted list, as used by `pd.qcut`. -/
def quantileOfSorted (s : List ℚ) (q : ℚ) : ℚ :=
  let pos : ℚ := q * ((s.length : ℚ) - 1)
  let h : Nat := (Int.toNat ⌊pos⌋)
  let lo := s.getD h 0
  let hi := s.getD (h + 1) lo
  lo + (pos - (h : ℚ)) * (hi - lo)

def qProbs : List ℚ := [0, 1/4, 1/2, 3/4, 1]

/-- The five quartile bin edges of `pd.qcut(x, 4, ...)`. -/
def quantileEdges (xs : List ℚ) : List ℚ :=
  qProbs.map (quantileOfSorted (List.insertionSort (· ≤ ·) xs))

/-- Bin index of a value for strictly increasing edges `uniq`: bins are
right-closed, the first bin contains the minimum. -/
def binIdx (uniq : List ℚ) (v : ℚ) : Nat :=
  ((uniq.drop 1).dropLast).countP (fun e => e < v)

/-- Model of `pd.qcut(xs, 4, labels, duplicates)`:
raises on duplicate edges unless `duplicates="drop"`; with dropped edges the
explicit label list no longer matches the bin count and raises; otherwise
labels each value by its bin. On empty input the quantile edges are all-`NaN`
and collapse, raising in either mode. -/
def qcut4 (xs : List ℚ) (labels : List Int) (dropDups : Bool) : Except String (List Int) :=
  if xs = [] then
    .error (if dropDups then "Bin labels must be one fewer than the number of bin edges"
            else "Bin edges must be unique")
  else
    let edges := quantileEdges xs
    let uniq := edges.dedup
    if uniq.length < edges.length ∧ dropDups = false then
      .error "Bin edges must be unique"
    else if labels.length + 1 ≠ uniq.length then
      .error "Bin labels must be one fewer than the number of bin edges"
    else .ok (xs.map (fun v => labels.getD (binIdx uniq v) 0))

/-- Model of `Series.rank(method="first")`: rank by value, ties broken by position. -/
def rfirst (xs : List ℚ) : List Nat :=
  (List.range xs.length).map (fun i =>
    (List.range xs.length).countP (fun j =>
      xs.getD j 0 < xs.getD i 0 ∨ (xs.getD j 0 = xs.getD i 0 ∧ j ≤ i)))

def rfirstQ (xs : List ℚ) : List ℚ := (rfirst xs).map (fun n : ℕ => (n : ℚ))

/-- The segmentation rule chain of `segment_rfm` in `compute_rfm`. -/
def segment_rfm (r f m : Int) : String :=
  if 3 ≤ r ∧ 3 ≤ f ∧ 3 ≤ m then "Loyal Customer"
  else if 3 ≤ r ∧ f ≤ 2 then "New Customer"
  else if r ≤ 2 ∧ 3 ≤ f then "Potential Loyalist"
  else if r ≤ 2 ∧ f ≤ 2 then "At Risk"
  else "Others"

structure RfmScored where
  cid : Nat
  last_purchase : Nat
  frequency : Nat
  monetary : ℚ
  recency : Int
  R_score : Int
  F_score : Int
  M_score : Int
  RFM_score : String
  Segment : String
deriving DecidableEq

/-- Attach the three score columns, the concatenated `RFM_score` string and
the `Segment` label to the customer table. -/
def attachScores (rows : List RfmRow) (rs fs ms : List Int) : List RfmScored :=
  (List.range rows.length).map (fun i =>
    let b := rows.getD i defRfmRow
    let rsc := rs.getD i 0
    let fsc := fs.getD i 0
    let msc := ms.getD i 0
    { cid := b.cid, last_purchase := b.last_purchase, frequency := b.frequency,
      monetary := b.monetary, recency := b.recency,
      R_score := rsc, F_score := fsc, M_score := msc,
      RFM_score := toString rsc ++ toString fsc ++ toString msc,
      Segment := segment_rfm rsc fsc msc })

structure SegRow where
  Segment : String
  customers : Nat
  avg_recency : ℚ
  avg_frequency : ℚ
  avg_monetary : ℚ
deriving DecidableEq

def segCustomersGe (a b : SegRow) : Prop := b.customers ≤ a.customers

instance : DecidableRel segCustomersGe := fun _ _ => Nat.decLe _ _

/-- Model of `segment_summary`: per segment the distinct customer count and metric
means, sorted by customer count descending. -/
def segmentSummary (tbl : List RfmScored) : List SegRow :=
  let labels := (tbl.map (fun r => r.Segment)).dedup
  let rows := labels.map (fun s =>
    let f := tbl.filter (fun r => r.Segment = s)
    { Segment := s,
      customers := ((f.map (fun r => r.cid)).dedup).length,
      avg_recency := ((f.map (fun r => (r.recency : ℚ))).sum) / (f.length : ℚ),
      avg_frequency := ((f.map (fun r => (r.frequency : ℚ))).sum) / (f.length : ℚ),
      avg_monetary := ((f.map (fun r => r.monetary)).sum) / (f.length : ℚ) })
  List.insertionSort segCustomersGe rows

/-- Input column of the recency cut. -/
def recencyQ (df : List Row) : List ℚ := (rfmFiltered df).map (fun r => (r.recency : ℚ))

/-- Input column of the frequency cut (ranked first, as in the source). -/
def freqQ (df : List Row) : List ℚ :=
  rfirstQ ((rfmFiltered df).map (fun r => (r.frequency : ℚ)))

/-- Input column of the monetary cut (ranked first, as in the source). -/
def monQ (df : List Row) : List ℚ :=
  rfirstQ ((rfmFiltered df).map (fun r => r.monetary))

/-- Model of `compute_rfm`: per-customer RFM metrics, quartile scores (`R` by raw
recency with labels 4..1 and default duplicate handling; `F`/`M` by
first-ranked values with labels 1..4 and `duplicates="drop"`), the
concatenated score string, the segment label, and the segment summary. -/
def compute_rfm (df : List Row) : Except String (List RfmScored × List SegRow) :=
  let rfm := rfmFiltered df
  match qcut4 (recencyQ df) [4, 3, 2, 1] false with
  | .error e => .error e
  | .ok rs =>
    match qcut4 (freqQ df) [1, 2, 3, 4] true with
    | .error e => .error e
    | .ok fs =>
      match qcut4 (monQ df) [1, 2, 3, 4] true with
      | .error e => .error e
      | .ok ms =>
        let tbl := attachScores rfm rs fs ms
        .ok (tbl, segmentSummary tbl)

/-- Modelled from the spec: the segmentation rule table of section 4.3
step 7, an ordered list of `(predicate, label)` pairs evaluated
first-match-wins with default label `"Others"`, for comparison against the
source's `segment_rfm`. -/
def specRuleTable : List ((Int → Int → Int → Bool) × String) :=
  [ (fun r f m => decide (3 ≤ r) && decide (3 ≤ f) && decide (3 ≤ m), "Loyal Customer"),
    (fun r f _ => decide (3 ≤ r) && decide (f ≤ 2), "New Customer"),
    (fun r f _ => decide (r ≤ 2) && decide (3 ≤ f), "Potential Loyalist"),
    (fun r f _ => decide (r ≤ 2) && decide (f ≤ 2), "At Risk") ]

/-- Modelled from the spec: first-match-wins evaluation of `specRuleTable`. -/
def specSegment (r f m : Int) : String :=
  ((specRuleTable.find? (fun p => p.1 r f m)).map (fun p => p.2)).getD "Others"

/-- Concrete input: four customers, one payment each, distinct days. -/
def df4 : List Row :=
  [ ⟨1, some 1, some 10, some 1⟩, ⟨2, some 2, some 20, some 1⟩,
    ⟨3, some 3, some 30, some 1⟩, ⟨4, some 4, some 40, some 1⟩ ]

/-- Concrete input: `df4` plus a customer whose only payment is zero. -/
def df5 : List Row := df4 ++ [⟨5, some 5, some 25, some 0⟩]

/-- Concrete input: four customers all purchasing on the same day, so all
recencies coincide. -/
def dfEqRec : List Row :=
  [ ⟨1, some 1, some 10, some 1⟩, ⟨2, some 2, some 10, some 1⟩,
    ⟨3, some 3, some 10, some 1⟩, ⟨4, some 4, some 10, some 1⟩ ]

/-- Concrete input: order 1 split across two payment rows in one month,
order 2 in another month. -/
def dfC1 : List Row :=
  [ ⟨1, some 1, some 10, some 2⟩, ⟨1, some 1, some 10, some 3⟩,
    ⟨2, some 2, some 40, some 5⟩ ]

/-- The customer table `compute_rfm` produces on `df4`. -/
def tbl4 : List RfmScored :=
  [ ⟨1, 10, 1, 1, 31, 1, 1, 1, "111", "At Risk"⟩,
    ⟨2, 20, 1, 1, 21, 2, 2, 2, "222", "At Risk"⟩,
    ⟨3, 30, 1, 1, 11, 3, 3, 3, "333", "Loyal Customer"⟩,
    ⟨4, 40, 1, 1, 1, 4, 4, 4, "444", "Loyal Customer"⟩ ]

/-- The segment summary `compute_rfm` produces on `df4`. -/
def seg4 : List SegRow :=
  [ ⟨"At Risk", 2, 26, 1, 1⟩, ⟨"Loyal Customer", 2, 6, 1, 1⟩ ]

/-- The customer rows shared by the `df4` and `df5` pipelines after the
positive-monetary filter. -/
def rows4 : List RfmRow :=
  [ ⟨1, 10, 1, 1, 31⟩, ⟨2, 20, 1, 1, 21⟩, ⟨3, 30, 1, 1, 11⟩, ⟨4, 40, 1, 1, 1⟩ ]

/-! ### Generic list lemmas -/

theorem sum_map_one {α : Type} (l : List α) : (l.map (fun _ => (1 : ℕ))).sum = l.length := by
  induction l with
  | nil => rfl
  | cons a t ih => simp [ih, Nat.add_comm]

theorem sum_map_filter_not {α M : Type} [AddCommMonoid M] (w : α → M) (p : α → Bool)
    (l : List α) :
    ((l.filter p).map w).sum + ((l.filter (fun x => ! p x)).map w).sum = (l.map w).sum := by
  induction l with
  | nil => simp
  | cons a t ih =>
    by_cases h : p a = true
    · simp only [List.filter_cons, h, if_pos, List.map_cons, List.sum_cons]
      simp only [h, Bool.not_true, if_neg Bool.false_ne_true]
      rw [add_assoc, ih]
    · have h' : p a = false := by
        cases hpa : p a
        · rfl
        · exact absurd hpa h
      simp only [List.filter_cons, h', Bool.not_false, if_pos, List.map_cons, List.sum_cons]
      simp only [if_neg Bool.false_ne_true]
      rw [add_left_comm, ih]

theorem sum_fiber_eq {α κ M : Type} [DecidableEq κ] [AddCommMonoid M] (f : α → κ) (w : α → M) :
    ∀ (ks : List κ) (l : List α), ks.Nodup → (∀ x ∈ l, f x ∈ ks) →
      (ks.map (fun k => ((l.filter (fun x => f x = k)).map w).sum)).sum = (l.map w).sum := by
  intro ks
  induction ks with
  | nil =>
    intro l _ hcov
    cases l with
    | nil => simp
    | cons a t => exact absurd (hcov a (List.mem_cons_self a t)) (List.not_mem_nil _)
  | cons k ks ih =>
    intro l hnd hcov
    have hndt : ks.Nodup := (List.nodup_cons.mp hnd).2
    have hknot : k ∉ ks := (List.nodup_cons.mp hnd).1
    have hcov' : ∀ x ∈ l.filter (fun x => ! decide (f x = k)), f x ∈ ks := by
      intro x hx
      have hx' := List.mem_filter.mp hx
      have hne : ¬ (f x = k) := by
        intro hfk
        simp [hfk] at hx'
      rcases List.mem_cons.mp (hcov x hx'.1) with h | h
      · exact absurd h hne
      · exact h
    have hfib : ∀ k' ∈ ks,
        (l.filter (fun x => ! decide (f x = k))).filter (fun x => f x = k')
          = l.filter (fun x => f x = k') := by
      intro k' hk'
      rw [List.filter_filter]
      apply List.filter_congr
      intro a _
      have hkk : ¬ k' = k := by
        intro h
        apply hknot
        rw [← h]
        exact hk'
      by_cases hak' : f a = k'
      · simp [hak', hkk]
      · simp [hak']
    have ihl := ih (l.filter (fun x => ! decide (f x = k))) hndt hcov'
    calc (List.map (fun k => ((l.filter (fun x => f x = k)).map w).sum) (k :: ks)).sum
        = ((l.filter (fun x => f x = k)).map w).sum
          + (ks.map (fun k' => ((l.filter (fun x => f x = k')).map w).sum)).sum := by
          simp
      _ = ((l.filter (fun x => f x = k)).map w).sum
          + (ks.map (fun k' =>
              (((l.filter (fun x => ! decide (f x = k))).filter (fun x => f x = k')).map w).sum)).sum := by
          congr 1
          congr 1
          apply List.map_congr_left
          intro k' hk'
          rw [hfib k' hk']
      _ = ((l.filter (fun x => f x = k)).map w).sum
          + ((l.filter (fun x => ! decide (f x = k))).map w).sum := by rw [ihl]
      _ = (l.map w).sum := sum_map_filter_not w (fun x => decide (f x = k)) l

theorem length_fiber_eq {α κ : Type} [DecidableEq κ] (f : α → κ) (ks : List κ) (l : List α)
    (h1 : ks.Nodup) (h2 : ∀ x ∈ l, f x ∈ ks) :
    (ks.map (fun k => (l.filter (fun x => f x = k)).length)).sum = l.length := by
  have h := sum_fiber_eq f (fun _ => (1 : ℕ)) ks l h1 h2
  rw [sum_map_one] at h
  rw [← h]
  congr 1
  apply List.map_congr_left
  intro k _
  rw [sum_map_one]

theorem perm_of_nodup_mem_iff {α : Type} {l l' : List α} (h1 : l.Nodup) (h2 : l'.Nodup)
    (h : ∀ a, a ∈ l ↔ a ∈ l') : l.Perm l' :=
  List.Subperm.antisymm
    (h1.subperm (fun a ha => (h a).mp ha))
    (h2.subperm (fun a ha => (h a).mpr ha))

theorem countP_lt_countP {α : Type} (p q : α → Bool) :
    ∀ (l : List α), (∀ a ∈ l, p a = true → q a = true) →
      ∀ a₀, a₀ ∈ l → q a₀ = true → p a₀ = false → l.countP p < l.countP q := by
  intro l
  induction l with
  | nil => intro _ a₀ ha; exact absurd ha (List.not_mem_nil _)
  | cons b t ih =>
    intro hpq a₀ ha hq hp
    rcases List.mem_cons.mp ha with rfl | hat
    · have hle : t.countP p ≤ t.countP q := by
        apply List.countP_mono_left
        intro a hat' hpa
        exact hpq a (List.mem_cons_of_mem _ hat') hpa
      simp [List.countP_cons, hp, hq]
      omega
    · have hlt := ih (fun a hat' hpa => hpq a (List.mem_cons_of_mem _ hat') hpa) a₀ hat hq hp
      by_cases hb : p b = true
      · have hqb := hpq b (List.mem_cons_self _ _) hb
        simp only [List.countP_cons, hb, hqb]
        omega
      · have hb' : p b = false := by
          cases hpb : p b
          · rfl
          · exact absurd hpb hb
        cases hqb : q b <;> simp [List.countP_cons, hb', hqb] <;> omega

theorem le_maxN {a : Nat} : ∀ {l : List Nat}, a ∈ l → a ≤ maxN l := by
  intro l
  induction l with
  | nil => intro h; exact absurd h (List.not_mem_nil _)
  | cons b t ih =>
    intro h
    rcases List.mem_cons.mp h with rfl | ht
    · exact le_max_left _ _
    · exact le_trans (ih ht) (le_max_right _ _)

theorem maxN_le {l : List Nat} {m : Nat} (h : ∀ a ∈ l, a ≤ m) : maxN l ≤ m := by
  induction l with
  | nil => exact Nat.zero_le m
  | cons b t ih =>
    have hb := h b (List.mem_cons_self _ _)
    have ht := ih (fun a ha => h a (List.mem_cons_of_mem _ ha))
    exact max_le hb ht

/-! ### Monthly sales lemmas -/

theorem omKeys_nodup (df : List Row) : (omKeys df).Nodup := List.nodup_dedup _

theorem mem_omKeys {df : List Row} {k : Nat × Nat} :
    k ∈ omKeys df ↔ ∃ x ∈ tsRows df, (x.1, x.2.1) = k := by
  simp [omKeys, List.mem_dedup]

theorem monthly_map_orders (df : List Row) :
    (compute_monthly_sales df).map (fun r => r.total_orders)
      = (List.insertionSort (· ≤ ·) (((omKeys df).map (fun k => k.2)).dedup)).map
          (fun m => (((omKeys df).filter (fun k => k.2 = m)).map (fun k => k.1)).dedup.length) := by
  simp only [compute_monthly_sales, List.map_map]
  rfl

theorem monthly_map_revenue (df : List Row) :
    (compute_monthly_sales df).map (fun r => r.total_revenue)
      = (List.insertionSort (· ≤ ·) (((omKeys df).map (fun k => k.2)).dedup)).map
          (fun m => (((omKeys df).filter (fun k => k.2 = m)).map (orderTotal df)).sum) := by
  simp only [compute_monthly_sales, List.map_map]
  rfl

theorem monthFiber_nunique (df : List Row) (m : Nat) :
    (((omKeys df).filter (fun k => k.2 = m)).map (fun k => k.1)).dedup.length
      = ((omKeys df).filter (fun k => k.2 = m)).length := by
  have hnd : (((omKeys df).filter (fun k => k.2 = m)).map (fun k => k.1)).Nodup := by
    apply List.Nodup.map_on
    · intro x hx y hy hxy
      have hx' := List.mem_filter.mp hx
      have hy' := List.mem_filter.mp hy
      have hx2 : x.2 = m := of_decide_eq_true hx'.2
      have hy2 : y.2 = m := of_decide_eq_true hy'.2
      exact Prod.ext hxy (hx2.trans hy2.symm)
    · exact (omKeys_nodup df).filter _
  rw [List.dedup_eq_self.mpr hnd, List.length_map]

/-- Summing a function over the sorted month list equals summing it over the
deduplicated month keys. -/
theorem months_sum_eq {M : Type} [AddCommMonoid M] (df : List Row) (g : Nat → M) :
    ((List.insertionSort (· ≤ ·) (((omKeys df).map (fun k => k.2)).dedup)).map g).sum
      = ((((omKeys df).map (fun k => k.2)).dedup).map g).sum :=
  ((List.perm_insertionSort _ _).map g).sum_eq

theorem month_cover (df : List Row) :
    ∀ k ∈ omKeys df, k.2 ∈ ((omKeys df).map (fun k => k.2)).dedup := by
  intro k hk
  exact List.mem_dedup.mpr (List.mem_map_of_mem _ hk)

/-- The total revenue reported by `compute_monthly_sales` is the sum of the
(non-missing-timestamp) rows' payment values. -/
theorem revenue_total_eq (df : List Row) :
    ((compute_monthly_sales df).map (fun r => r.total_revenue)).sum
      = ((tsRows df).map (fun x => x.2.2.getD 0)).sum := by
  rw [monthly_map_revenue, months_sum_eq]
  have h1 : ((((omKeys df).map (fun k => k.2)).dedup).map
      (fun m => (((omKeys df).filter (fun k => k.2 = m)).map (orderTotal df)).sum)).sum
      = ((omKeys df).map (orderTotal df)).sum := by
    exact sum_fiber_eq (fun k => k.2) (orderTotal df) _ (omKeys df)
      (List.nodup_dedup _) (month_cover df)
  rw [h1]
  exact sum_fiber_eq (fun x => (x.1, x.2.1)) (fun x => x.2.2.getD 0) (omKeys df) (tsRows df)
    (omKeys_nodup df) (fun x hx => List.mem_dedup.mpr (List.mem_map_of_mem _ hx))

/-! ### Claims C1, C7, C3 -/

/-- Claim C1: for every filtered row set in which rows sharing an `order_id`
fall in the same month bucket (the spec's invariant that an order cannot
cross a month boundary), the sum of `total_orders` over all months returned
by `compute_monthly_sales` counts each distinct `order_id` exactly once,
even when that `order_id` appears on multiple payment rows. -/
theorem c1_total_orders_distinct (df : List Row)
    (h : ∀ x ∈ tsRows df, ∀ y ∈ tsRows df, x.1 = y.1 → x.2.1 = y.2.1) :
    ((compute_monthly_sales df).map (fun r => r.total_orders)).sum
      = (((tsRows df).map (fun x => x.1)).dedup).length := by
  rw [monthly_map_orders, months_sum_eq]
  have h2 : ((((omKeys df).map (fun k => k.2)).dedup).map
      (fun m => (((omKeys df).filter (fun k => k.2 = m)).map (fun k => k.1)).dedup.length)).sum
      = ((((omKeys df).map (fun k => k.2)).dedup).map
          (fun m => ((omKeys df).filter (fun k => k.2 = m)).length)).sum := by
    congr 1
    apply List.map_congr_left
    intro m _
    exact monthFiber_nunique df m
  rw [h2]
  have h3 : ((((omKeys df).map (fun k => k.2)).dedup).map
      (fun m => ((omKeys df).filter (fun k => k.2 = m)).length)).sum = (omKeys df).length :=
    length_fiber_eq (fun k => k.2) _ (omKeys df) (List.nodup_dedup _) (month_cover df)
  rw [h3]
  have hperm : ((omKeys df).map (fun k => k.1)).Perm (((tsRows df).map (fun x => x.1)).dedup) := by
    apply perm_of_nodup_mem_iff
    · apply List.Nodup.map_on _ (omKeys_nodup df)
      intro x hx y hy hxy
      rcases mem_omKeys.mp hx with ⟨a, ha, rfl⟩
      rcases mem_omKeys.mp hy with ⟨b, hb, rfl⟩
      have h1 : a.1 = b.1 := hxy
      have hm := h a ha b hb h1
      simp [h1, hm]
    · exact List.nodup_dedup _
    · intro o
      constructor
      · intro ho
        rcases List.mem_map.mp ho with ⟨k, hk, rfl⟩
        rcases mem_omKeys.mp hk with ⟨a, ha, rfl⟩
        exact List.mem_dedup.mpr (List.mem_map_of_mem _ ha)
      · intro ho
        rcases List.mem_map.mp (List.mem_dedup.mp ho) with ⟨a, ha, rfl⟩
        have hk : (a.1, a.2.1) ∈ omKeys df :=
          List.mem_dedup.mpr (List.mem_map_of_mem _ ha)
        exact List.mem_map.mpr ⟨(a.1, a.2.1), hk, rfl⟩
  calc (omKeys df).length = ((omKeys df).map (fun k => k.1)).length := (List.length_map _ _).symm
    _ = (((tsRows df).map (fun x => x.1)).dedup).length := hperm.length_eq

/-- Witness for C1 at a concrete input: order 1 split across two payment
rows in one month, order 2 in another month; the month-wise order counts
sum to the 2 distinct order ids. -/
theorem c1_total_orders_distinct_witness :
    ((compute_monthly_sales dfC1).map (fun r => r.total_orders)).sum
      = (((tsRows dfC1).map (fun x => x.1)).dedup).length :=
  c1_total_orders_distinct dfC1 (by decide)

/-- Claim C7: restricting the row set (as a date-range restriction does)
never increases total revenue, provided all payment values are
non-negative. -/
theorem c7_revenue_monotone (df1 df2 : List Row) (hsub : df1.Sublist df2)
    (hpos : ∀ r ∈ df2, 0 ≤ r.payment_value.getD 0) :
    ((compute_monthly_sales df1).map (fun r => r.total_revenue)).sum
      ≤ ((compute_monthly_sales df2).map (fun r => r.total_revenue)).sum := by
  rw [revenue_total_eq, revenue_total_eq]
  apply List.Sublist.sum_le_sum
  · exact (hsub.filterMap _).map _
  · intro a ha
    rcases List.mem_map.mp ha with ⟨x, hx, rfl⟩
    rcases List.mem_filterMap.mp hx with ⟨r, hr, hrx⟩
    rcases Option.map_eq_some'.mp hrx with ⟨t, _, hx2⟩
    rw [← hx2]
    exact hpos r hr

/-- Witness for C7 at a concrete input: the single first row of `dfC1`
versus all of `dfC1`. -/
theorem c7_revenue_monotone_witness :
    ((compute_monthly_sales [⟨1, some 1, some 10, some 2⟩]).map (fun r => r.total_revenue)).sum
      ≤ ((compute_monthly_sales dfC1).map (fun r => r.total_revenue)).sum :=
  c7_revenue_monotone [⟨1, some 1, some 10, some 2⟩] dfC1 (by decide) (by decide)

/-- Counterexample to claim C3 as stated: on the empty filtered row set,
`compute_rfm` does not return a result at all — the recency quantile cut
fails (empty quantile edges collapse), so there is no empty-but-valid
output pair. -/
theorem c3_cex_empty_rfm_fails : ¬ ∃ p, compute_rfm ([] : List Row) = Except.ok p := by
  intro hex
  rcases hex with ⟨p, hp⟩
  rw [show compute_rfm ([] : List Row) = Except.error "Bin edges must be unique" from rfl] at hp
  exact Except.noConfusion hp

/-- Claim C3 (amended): on the empty filtered row set,
`compute_monthly_sales` returns an empty (but structurally valid) table,
while `compute_rfm` raises the duplicate-bin-edge error from the recency
quantile cut instead of returning an empty result. -/
theorem c3_empty_behavior :
    compute_monthly_sales ([] : List Row) = []
      ∧ compute_rfm ([] : List Row) = Except.error "Bin edges must be unique" :=
  ⟨rfl, rfl⟩

/-! ### Claim C2 -/

/-- Claim C2: segment assignment is a pure function of the three scores,
given by the ordered first-match-wins rule table (here `specSegment`,
modelled from the spec); the listed concrete triples map to the listed
segments; and `M_score` plays no role outside the first rule (whenever the
first rule's `R`/`F` guard is not met, changing `M_score` cannot change the
segment). -/
theorem c2_segment_rule_table :
    (∀ r f m : Int, segment_rfm r f m = specSegment r f m)
    ∧ segment_rfm 3 3 3 = "Loyal Customer"
    ∧ segment_rfm 4 1 1 = "New Customer"
    ∧ segment_rfm 1 4 1 = "Potential Loyalist"
    ∧ segment_rfm 1 1 1 = "At Risk"
    ∧ segment_rfm 3 1 4 = "New Customer"
    ∧ segment_rfm 2 3 1 = "Potential Loyalist"
    ∧ (∀ r f m m' : Int, (3 ≤ r ∧ 3 ≤ f) ∨ segment_rfm r f m = segment_rfm r f m') := by
  refine ⟨?_, by decide, by decide, by decide, by decide, by decide, by decide, ?_⟩
  · intro r f m
    unfold segment_rfm specSegment specRuleTable
    split_ifs with h1 h2 h3 h4
    · simp [List.find?, h1.1, h1.2.1, h1.2.2]
    · have hf : ¬ (3 ≤ f) := by
        have := h2.2
        omega
      simp [List.find?, h2.1, h2.2, hf]
    · have hr : ¬ (3 ≤ r) := by
        have := h3.1
        omega
      simp [List.find?, h3.1, h3.2, hr]
    · have hr : ¬ (3 ≤ r) := by
        have := h4.1
        omega
      have hf : ¬ (3 ≤ f) := by
        have := h4.2
        omega
      simp [List.find?, h4.1, h4.2, hr, hf]
    · by_cases hr : 3 ≤ r
      · have hf3 : 3 ≤ f := by
          by_contra hf
          exact h2 ⟨hr, by omega⟩
        have hm2 : ¬ 3 ≤ m := fun hm => h1 ⟨hr, hf3, hm⟩
        have hr2 : ¬ r ≤ 2 := by omega
        have hf2 : ¬ f ≤ 2 := by omega
        simp [List.find?, hr, hf3, hm2, hr2, hf2]
      · have hr2 : r ≤ 2 := by omega
        have hf3 : ¬ 3 ≤ f := fun hf => h3 ⟨hr2, hf⟩
        have hf2 : f ≤ 2 := by omega
        exact absurd ⟨hr2, hf2⟩ h4
  · intro r f m mtwo
    by_cases h : 3 ≤ r ∧ 3 ≤ f
    · exact Or.inl h
    · right
      unfold segment_rfm
      have h1 : ¬ (3 ≤ r ∧ 3 ≤ f ∧ 3 ≤ m) := fun hc => h ⟨hc.1, hc.2.1⟩
      have h2 : ¬ (3 ≤ r ∧ 3 ≤ f ∧ 3 ≤ mtwo) := fun hc => h ⟨hc.1, hc.2.1⟩
      simp [h1, h2]

/-! ### RFM table support lemmas -/

theorem customerKeys_nodup (d : List (Nat × Nat × ℚ)) : (customerKeys d).Nodup :=
  ((List.perm_insertionSort _ _).nodup_iff).mpr (List.nodup_dedup _)

theorem mem_customerKeys {d : List (Nat × Nat × ℚ)} {c : Nat} :
    c ∈ customerKeys d ↔ ∃ x ∈ d, x.1 = c := by
  rw [customerKeys, (List.perm_insertionSort _ _).mem_iff, List.mem_dedup]
  simp

theorem rfmBase_map_cid (df : List Row) :
    (rfmBase df).map (fun r => r.cid) = customerKeys (rfm_data df) := by
  simp only [rfmBase, List.map_map]
  have h : ((fun r : RfmRow => r.cid) ∘ fun c =>
      ({ cid := c,
         last_purchase := maxN ((fiberOf (rfm_data df) c).map (fun x => x.2.1)),
         frequency := (fiberOf (rfm_data df) c).length,
         monetary := ((fiberOf (rfm_data df) c).map (fun x => x.2.2)).sum,
         recency := referenceDate (rfm_data df)
           - (maxN ((fiberOf (rfm_data df) c).map (fun x => x.2.1)) : Int) } : RfmRow))
      = fun c => c := rfl
  rw [h]
  exact List.map_id' _

theorem rfmBase_recency_pos (df : List Row) :
    ∀ x ∈ rfmBase df, 1 ≤ x.recency := by
  intro x hx
  simp only [rfmBase] at hx
  rcases List.mem_map.mp hx with ⟨c, _, rfl⟩
  show 1 ≤ referenceDate (rfm_data df)
      - (maxN ((fiberOf (rfm_data df) c).map (fun x => x.2.1)) : Int)
  have hle : maxN ((fiberOf (rfm_data df) c).map (fun x => x.2.1))
      ≤ maxN ((rfm_data df).map (fun x => x.2.1)) := by
    apply maxN_le
    intro a ha
    rcases List.mem_map.mp ha with ⟨p, hp, rfl⟩
    exact le_maxN (List.mem_map_of_mem _ (List.mem_filter.mp hp).1)
  unfold referenceDate
  omega

theorem rfmFiltered_cid_nodup (df : List Row) :
    ((rfmFiltered df).map (fun r => r.cid)).Nodup := by
  have h1 : ((rfmBase df).map (fun r => r.cid)).Nodup := by
    rw [rfmBase_map_cid]
    exact customerKeys_nodup _
  exact List.Nodup.sublist ((List.filter_sublist _).map _) h1

theorem attachScores_length (rows : List RfmRow) (rs fs ms : List Int) :
    (attachScores rows rs fs ms).length = rows.length := by
  simp [attachScores]

theorem attachScores_getElem (rows : List RfmRow) (rs fs ms : List Int) (i : Nat)
    (hi : i < rows.length) (hi2 : i < (attachScores rows rs fs ms).length) :
    (attachScores rows rs fs ms)[i]
      = { cid := rows[i].cid, last_purchase := rows[i].last_purchase,
          frequency := rows[i].frequency, monetary := rows[i].monetary,
          recency := rows[i].recency,
          R_score := rs.getD i 0, F_score := fs.getD i 0, M_score := ms.getD i 0,
          RFM_score := toString (rs.getD i 0) ++ toString (fs.getD i 0)
            ++ toString (ms.getD i 0),
          Segment := segment_rfm (rs.getD i 0) (fs.getD i 0) (ms.getD i 0) } := by
  simp [attachScores, List.getD_eq_getElem?_getD, List.getElem?_eq_getElem hi]

theorem attachScores_map_cid (rows : List RfmRow) (rs fs ms : List Int) :
    (attachScores rows rs fs ms).map (fun r => r.cid) = rows.map (fun b => b.cid) := by
  apply List.ext_getElem
  · simp [attachScores]
  · intro i h1 h2
    have hi : i < rows.length := by simpa using h2
    have hi2 : i < (attachScores rows rs fs ms).length := by
      rw [attachScores_length]
      exact hi
    simp only [List.getElem_map]
    rw [attachScores_getElem rows rs fs ms i hi hi2]

/-- Every row of the scored table carries the base fields of some row of the
input customer table. -/
theorem attachScores_base {rows : List RfmRow} {rs fs ms : List Int} {x : RfmScored}
    (hx : x ∈ attachScores rows rs fs ms) :
    ∃ b ∈ rows, x.cid = b.cid ∧ x.frequency = b.frequency ∧ x.monetary = b.monetary
      ∧ x.recency = b.recency ∧ x.last_purchase = b.last_purchase := by
  rcases List.mem_iff_getElem.mp hx with ⟨i, hi2, rfl⟩
  have hi : i < rows.length := by
    rw [attachScores_length] at hi2
    exact hi2
  rw [attachScores_getElem rows rs fs ms i hi hi2]
  exact ⟨rows[i], List.getElem_mem hi, rfl, rfl, rfl, rfl, rfl⟩

/-- Every row of the input customer table appears (with its base fields) in
the scored table. -/
theorem attachScores_exists {rows : List RfmRow} (rs fs ms : List Int) {b : RfmRow}
    (hb : b ∈ rows) :
    ∃ x ∈ attachScores rows rs fs ms, x.cid = b.cid ∧ x.frequency = b.frequency
      ∧ x.monetary = b.monetary := by
  rcases List.mem_iff_getElem.mp hb with ⟨i, hi, rfl⟩
  have hi2 : i < (attachScores rows rs fs ms).length := by
    rw [attachScores_length]
    exact hi
  refine ⟨(attachScores rows rs fs ms)[i], List.getElem_mem hi2, ?_⟩
  rw [attachScores_getElem rows rs fs ms i hi hi2]
  exact ⟨rfl, rfl, rfl⟩

/-- Success-shape inversion for `compute_rfm`. -/
theorem compute_rfm_ok {df : List Row} {tbl : List RfmScored} {seg : List SegRow}
    (h : compute_rfm df = Except.ok (tbl, seg)) :
    ∃ rs fs ms, qcut4 (recencyQ df) [4, 3, 2, 1] false = Except.ok rs
      ∧ qcut4 (freqQ df) [1, 2, 3, 4] true = Except.ok fs
      ∧ qcut4 (monQ df) [1, 2, 3, 4] true = Except.ok ms
      ∧ tbl = attachScores (rfmFiltered df) rs fs ms
      ∧ seg = segmentSummary (attachScores (rfmFiltered df) rs fs ms) := by
  unfold compute_rfm at h
  split at h
  · exact Except.noConfusion h
  · next rs hrs =>
    split at h
    · exact Except.noConfusion h
    · next fs hfs =>
      split at h
      · exact Except.noConfusion h
      · next ms hms =>
        have h' : (attachScores (rfmFiltered df) rs fs ms,
            segmentSummary (attachScores (rfmFiltered df) rs fs ms)) = (tbl, seg) := by
          injection h
        have h1 := congrArg Prod.fst h'
        have h2 := congrArg Prod.snd h'
        exact ⟨rs, fs, ms, hrs, hfs, hms, h1.symm, h2.symm⟩

/-! ### Concrete evaluation lemmas (the quantile pipeline is evaluated by
`norm_num` because kernel reduction stops at `Rat` normalisation) -/

theorem quantileOfSorted_eval (s : List ℚ) (q : ℚ) (k : Nat)
    (hk : ⌊q * ((s.length : ℚ) - 1)⌋ = (k : Int)) :
    quantileOfSorted s q
      = s.getD k 0 + (q * ((s.length : ℚ) - 1) - (k : ℚ))
          * (s.getD (k + 1) (s.getD k 0) - s.getD k 0) := by
  rw [quantileOfSorted, hk]
  norm_num

theorem rfmBase_df4 : rfmBase df4 = rows4 := by
  have h : rfmBase df4 = [⟨1, 10, 1, [(1:ℚ)].sum, 31⟩, ⟨2, 20, 1, [(1:ℚ)].sum, 21⟩,
      ⟨3, 30, 1, [(1:ℚ)].sum, 11⟩, ⟨4, 40, 1, [(1:ℚ)].sum, 1⟩] := rfl
  rw [h, rows4]
  norm_num

theorem rfmFiltered_df4 : rfmFiltered df4 = rows4 := by
  rw [rfmFiltered, rfmBase_df4, rows4]
  norm_num

theorem recencyQ_df4 : recencyQ df4 = [31, 21, 11, 1] := by
  rw [recencyQ, rfmFiltered_df4, rows4]
  norm_num

theorem freqQ_df4 : freqQ df4 = [1, 2, 3, 4] := by
  rw [freqQ, rfmFiltered_df4, rows4]
  decide

theorem monQ_df4 : monQ df4 = [1, 2, 3, 4] := by
  rw [monQ, rfmFiltered_df4, rows4]
  decide

theorem edges_rec4 : quantileEdges [(31:ℚ), 21, 11, 1] = [1, 17/2, 16, 47/2, 31] := by
  rw [quantileEdges]
  have hs : List.insertionSort (· ≤ ·) [(31:ℚ), 21, 11, 1] = [1, 11, 21, 31] := by decide
  rw [hs, qProbs]
  have e0 : quantileOfSorted [(1:ℚ), 11, 21, 31] 0 = 1 := by
    rw [quantileOfSorted_eval _ _ 0 (by norm_num)]
    norm_num
  have e1 : quantileOfSorted [(1:ℚ), 11, 21, 31] (1/4) = 17/2 := by
    rw [quantileOfSorted_eval _ _ 0 (by norm_num [Int.floor_eq_iff])]
    norm_num
  have e2 : quantileOfSorted [(1:ℚ), 11, 21, 31] (1/2) = 16 := by
    rw [quantileOfSorted_eval _ _ 1 (by norm_num [Int.floor_eq_iff])]
    norm_num
  have e3 : quantileOfSorted [(1:ℚ), 11, 21, 31] (3/4) = 47/2 := by
    rw [quantileOfSorted_eval _ _ 2 (by norm_num [Int.floor_eq_iff])]
    norm_num
  have e4 : quantileOfSorted [(1:ℚ), 11, 21, 31] 1 = 31 := by
    rw [quantileOfSorted_eval _ _ 3 (by norm_num [Int.floor_eq_iff])]
    norm_num
  simp only [List.map_cons, List.map_nil]
  rw [e0, e1, e2, e3, e4]

theorem dedup_rec4 : ([1, 17/2, 16, 47/2, 31] : List ℚ).dedup = [1, 17/2, 16, 47/2, 31] := by
  rw [List.dedup_eq_self]
  norm_num

theorem qcutR_vals4 : qcut4 [(31:ℚ), 21, 11, 1] [4, 3, 2, 1] false = Except.ok [1, 2, 3, 4] := by
  have hdrop : ((([1, 17/2, 16, 47/2, 31] : List ℚ).drop 1).dropLast) = [17/2, 16, 47/2] := rfl
  have b31 : binIdx [1, 17/2, 16, 47/2, 31] (31:ℚ) = 3 := by
    rw [binIdx, hdrop]
    norm_num [List.countP_cons, List.countP_nil]
  have b21 : binIdx [1, 17/2, 16, 47/2, 31] (21:ℚ) = 2 := by
    rw [binIdx, hdrop]
    norm_num [List.countP_cons, List.countP_nil]
  have b11 : binIdx [1, 17/2, 16, 47/2, 31] (11:ℚ) = 1 := by
    rw [binIdx, hdrop]
    norm_num [List.countP_cons, List.countP_nil]
  have b1 : binIdx [1, 17/2, 16, 47/2, 31] (1:ℚ) = 0 := by
    rw [binIdx, hdrop]
    norm_num [List.countP_cons, List.countP_nil]
  simp only [qcut4, edges_rec4, dedup_rec4]
  norm_num [b31, b21, b11, b1]
  intro h
  exact absurd h (by decide)

theorem edges_1234 : quantileEdges [(1:ℚ), 2, 3, 4] = [1, 7/4, 5/2, 13/4, 4] := by
  rw [quantileEdges]
  have hs : List.insertionSort (· ≤ ·) [(1:ℚ), 2, 3, 4] = [1, 2, 3, 4] := by decide
  rw [hs, qProbs]
  have e0 : quantileOfSorted [(1:ℚ), 2, 3, 4] 0 = 1 := by
    rw [quantileOfSorted_eval _ _ 0 (by norm_num)]
    norm_num
  have e1 : quantileOfSorted [(1:ℚ), 2, 3, 4] (1/4) = 7/4 := by
    rw [quantileOfSorted_eval _ _ 0 (by norm_num [Int.floor_eq_iff])]
    norm_num
  have e2 : quantileOfSorted [(1:ℚ), 2, 3, 4] (1/2) = 5/2 := by
    rw [quantileOfSorted_eval _ _ 1 (by norm_num [Int.floor_eq_iff])]
    norm_num
  have e3 : quantileOfSorted [(1:ℚ), 2, 3, 4] (3/4) = 13/4 := by
    rw [quantileOfSorted_eval _ _ 2 (by norm_num [Int.floor_eq_iff])]
    norm_num
  have e4 : quantileOfSorted [(1:ℚ), 2, 3, 4] 1 = 4 := by
    rw [quantileOfSorted_eval _ _ 3 (by norm_num [Int.floor_eq_iff])]
    norm_num
  simp only [List.map_cons, List.map_nil]
  rw [e0, e1, e2, e3, e4]

theorem dedup_1234 : ([1, 7/4, 5/2, 13/4, 4] : List ℚ).dedup = [1, 7/4, 5/2, 13/4, 4] := by
  rw [List.dedup_eq_self]
  norm_num

theorem qcutFM_vals4 : qcut4 [(1:ℚ), 2, 3, 4] [1, 2, 3, 4] true = Except.ok [1, 2, 3, 4] := by
  have hdrop : ((([1, 7/4, 5/2, 13/4, 4] : List ℚ).drop 1).dropLast) = [7/4, 5/2, 13/4] := rfl
  have c1 : binIdx [1, 7/4, 5/2, 13/4, 4] (1:ℚ) = 0 := by
    rw [binIdx, hdrop]
    norm_num [List.countP_cons, List.countP_nil]
  have c2 : binIdx [1, 7/4, 5/2, 13/4, 4] (2:ℚ) = 1 := by
    rw [binIdx, hdrop]
    norm_num [List.countP_cons, List.countP_nil]
  have c3 : binIdx [1, 7/4, 5/2, 13/4, 4] (3:ℚ) = 2 := by
    rw [binIdx, hdrop]
    norm_num [List.countP_cons, List.countP_nil]
  have c4 : binIdx [1, 7/4, 5/2, 13/4, 4] (4:ℚ) = 3 := by
    rw [binIdx, hdrop]
    norm_num [List.countP_cons, List.countP_nil]
  simp only [qcut4, edges_1234, dedup_1234]
  norm_num [c1, c2, c3, c4]
  intro h
  exact absurd h (by decide)

theorem attach_rows4 : attachScores rows4 [1, 2, 3, 4] [1, 2, 3, 4] [1, 2, 3, 4] = tbl4 := by
  decide

theorem segsum_tbl4 : segmentSummary tbl4 = seg4 := by
  norm_num +decide [segmentSummary, tbl4, seg4, List.insertionSort, List.orderedInsert,
    segCustomersGe, List.sum_cons, List.sum_nil, List.filter_cons]

/-- Full evaluation of `compute_rfm` on `df4`. -/
theorem compute_rfm_df4 : compute_rfm df4 = Except.ok (tbl4, seg4) := by
  have hR : qcut4 (recencyQ df4) [4, 3, 2, 1] false = Except.ok [1, 2, 3, 4] := by
    rw [recencyQ_df4]
    exact qcutR_vals4
  have hF : qcut4 (freqQ df4) [1, 2, 3, 4] true = Except.ok [1, 2, 3, 4] := by
    rw [freqQ_df4]
    exact qcutFM_vals4
  have hM : qcut4 (monQ df4) [1, 2, 3, 4] true = Except.ok [1, 2, 3, 4] := by
    rw [monQ_df4]
    exact qcutFM_vals4
  simp only [compute_rfm, hR, hF, hM]
  rw [rfmFiltered_df4, attach_rows4, segsum_tbl4]

/-! ### Claims C5 and C8 -/

/-- Claim C5: whenever `compute_rfm` succeeds, every customer row of the RFM
table has non-negative recency, because the reference date is one day after
the maximum timestamp of the filtered input, which bounds every customer's
`last_purchase`. -/
theorem c5_recency_nonneg (df : List Row) (tbl : List RfmScored) (seg : List SegRow)
    (h : compute_rfm df = Except.ok (tbl, seg)) :
    ∀ row ∈ tbl, 0 ≤ row.recency := by
  rcases compute_rfm_ok h with ⟨rs, fs, ms, _, _, _, htbl, _⟩
  subst htbl
  intro row hrow
  rcases attachScores_base hrow with ⟨b, hb, _, _, _, hrec, _⟩
  rw [hrec]
  have hb' := (List.mem_filter.mp hb).1
  have h1 := rfmBase_recency_pos df b hb'
  omega

/-- Witness for C5: the first row of the table computed from `df4`. -/
theorem c5_recency_nonneg_witness :
    (0 : Int) ≤ (⟨1, 10, 1, 1, 31, 1, 1, 1, "111", "At Risk"⟩ : RfmScored).recency :=
  c5_recency_nonneg df4 tbl4 seg4 compute_rfm_df4 _ (by decide)

/-- A helper for composed maps: pointwise evaluation of the outer function. -/
theorem sum_map_map {α β : Type} (l : List α) (f : α → β) (g : β → ℕ) (h : α → ℕ)
    (hh : ∀ a ∈ l, g (f a) = h a) : ((l.map f).map g).sum = (l.map h).sum := by
  rw [List.map_map]
  exact congrArg List.sum (List.map_congr_left hh)

/-- If the scored table has pairwise-distinct customer ids, the segment
summary's `customers` column sums to the table's length. -/
theorem segmentSummary_customers_sum (tbl : List RfmScored)
    (hnd : (tbl.map (fun r => r.cid)).Nodup) :
    ((segmentSummary tbl).map (fun s => s.customers)).sum = tbl.length := by
  unfold segmentSummary
  rw [((List.perm_insertionSort segCustomersGe _).map (fun s : SegRow => s.customers)).sum_eq]
  refine Eq.trans (sum_map_map _ _ _
    (fun s => (tbl.filter (fun r => r.Segment = s)).length) ?_) ?_
  · intro s _
    show ((tbl.filter (fun r => r.Segment = s)).map (fun r => r.cid)).dedup.length
        = (tbl.filter (fun r => r.Segment = s)).length
    have hnd2 : ((tbl.filter (fun r => r.Segment = s)).map (fun r => r.cid)).Nodup :=
      List.Nodup.sublist ((List.filter_sublist _).map _) hnd
    rw [List.dedup_eq_self.mpr hnd2, List.length_map]
  · apply length_fiber_eq (fun r => r.Segment) _ tbl (List.nodup_dedup _)
    intro x hx
    exact List.mem_dedup.mpr (List.mem_map_of_mem _ hx)

/-- Claim C8: whenever `compute_rfm` succeeds, the `customers` column of the
segment summary sums to the number of distinct `customer_unique_id` values
in the RFM table. -/
theorem c8_segment_customer_sum (df : List Row) (tbl : List RfmScored) (seg : List SegRow)
    (h : compute_rfm df = Except.ok (tbl, seg)) :
    (seg.map (fun s => s.customers)).sum = ((tbl.map (fun r => r.cid)).dedup).length := by
  rcases compute_rfm_ok h with ⟨rs, fs, ms, _, _, _, htbl, hseg⟩
  have hnd : (tbl.map (fun r => r.cid)).Nodup := by
    rw [htbl, attachScores_map_cid]
    exact rfmFiltered_cid_nodup df
  rw [hseg, ← htbl, segmentSummary_customers_sum tbl hnd]
  rw [List.dedup_eq_self.mpr hnd, List.length_map]

/-- Witness for C8 at the concrete input `df4`. -/
theorem c8_segment_customer_sum_witness :
    (seg4.map (fun s => s.customers)).sum = ((tbl4.map (fun r => r.cid)).dedup).length :=
  c8_segment_customer_sum df4 tbl4 seg4 compute_rfm_df4

/-! ### Claim C6 -/

/-- Claim C6 (amended): for every customer with at least one qualifying row
and positive summed payment value, the successful RFM table contains a row
with that customer's id whose `frequency` is the count of their qualifying
rows and whose `monetary` is the sum of their payment values. -/
theorem c6_freq_monetary (df : List Row) (c : Nat) (tbl : List RfmScored) (seg : List SegRow)
    (h : compute_rfm df = Except.ok (tbl, seg))
    (hfib : fiberOf (rfm_data df) c ≠ [])
    (hpos : 0 < ((fiberOf (rfm_data df) c).map (fun x => x.2.2)).sum) :
    ∃ row ∈ tbl, row.cid = c
      ∧ row.frequency = (fiberOf (rfm_data df) c).length
      ∧ row.monetary = ((fiberOf (rfm_data df) c).map (fun x => x.2.2)).sum := by
  rcases compute_rfm_ok h with ⟨rs, fs, ms, _, _, _, htbl, _⟩
  subst htbl
  have hc : c ∈ customerKeys (rfm_data df) := by
    rcases List.exists_mem_of_ne_nil _ hfib with ⟨x, hx⟩
    have hx' := List.mem_filter.mp hx
    exact mem_customerKeys.mpr ⟨x, hx'.1, of_decide_eq_true hx'.2⟩
  have hb : ∃ b ∈ rfmBase df, b.cid = c ∧ b.frequency = (fiberOf (rfm_data df) c).length
      ∧ b.monetary = ((fiberOf (rfm_data df) c).map (fun x => x.2.2)).sum := by
    simp only [rfmBase]
    exact ⟨_, List.mem_map_of_mem _ hc, rfl, rfl, rfl⟩
  rcases hb with ⟨b, hb, hbc, hbfreq, hbm⟩
  have hbf : b ∈ rfmFiltered df := by
    apply List.mem_filter.mpr
    refine ⟨hb, ?_⟩
    rw [hbm]
    simpa using hpos
  rcases attachScores_exists rs fs ms hbf with ⟨row, hrow, h1, h2, h3⟩
  refine ⟨row, hrow, ?_, ?_, ?_⟩
  · rw [h1, hbc]
  · rw [h2, hbfreq]
  · rw [h3, hbm]

/-- Witness for C6 at the concrete input `df4`, customer 1. -/
theorem c6_freq_monetary_witness :
    ∃ row ∈ tbl4, row.cid = 1
      ∧ row.frequency = (fiberOf (rfm_data df4) 1).length
      ∧ row.monetary = ((fiberOf (rfm_data df4) 1).map (fun x => x.2.2)).sum :=
  c6_freq_monetary df4 1 tbl4 seg4 compute_rfm_df4 (by decide)
    (by rw [show fiberOf (rfm_data df4) 1 = [(1, 10, (1:ℚ))] from rfl]; norm_num)

theorem rfmBase_df5 : rfmBase df5
    = [⟨1, 10, 1, 1, 31⟩, ⟨2, 20, 1, 1, 21⟩, ⟨3, 30, 1, 1, 11⟩, ⟨4, 40, 1, 1, 1⟩,
       ⟨5, 25, 1, 0, 16⟩] := by
  have h : rfmBase df5 = [⟨1, 10, 1, [(1:ℚ)].sum, 31⟩, ⟨2, 20, 1, [(1:ℚ)].sum, 21⟩,
      ⟨3, 30, 1, [(1:ℚ)].sum, 11⟩, ⟨4, 40, 1, [(1:ℚ)].sum, 1⟩,
      ⟨5, 25, 1, [(0:ℚ)].sum, 16⟩] := rfl
  rw [h]
  norm_num

theorem rfmFiltered_df5 : rfmFiltered df5 = rows4 := by
  rw [rfmFiltered, rfmBase_df5, rows4]
  norm_num

theorem recencyQ_df5 : recencyQ df5 = [31, 21, 11, 1] := by
  rw [recencyQ, rfmFiltered_df5, rows4]
  norm_num

theorem freqQ_df5 : freqQ df5 = [1, 2, 3, 4] := by
  rw [freqQ, rfmFiltered_df5, rows4]
  decide

theorem monQ_df5 : monQ df5 = [1, 2, 3, 4] := by
  rw [monQ, rfmFiltered_df5, rows4]
  decide

/-- Full evaluation of `compute_rfm` on `df5`: customer 5 (zero total
payment) is absent from the output table. -/
theorem compute_rfm_df5 : compute_rfm df5 = Except.ok (tbl4, seg4) := by
  have hR : qcut4 (recencyQ df5) [4, 3, 2, 1] false = Except.ok [1, 2, 3, 4] := by
    rw [recencyQ_df5]
    exact qcutR_vals4
  have hF : qcut4 (freqQ df5) [1, 2, 3, 4] true = Except.ok [1, 2, 3, 4] := by
    rw [freqQ_df5]
    exact qcutFM_vals4
  have hM : qcut4 (monQ df5) [1, 2, 3, 4] true = Except.ok [1, 2, 3, 4] := by
    rw [monQ_df5]
    exact qcutFM_vals4
  simp only [compute_rfm, hR, hF, hM]
  rw [rfmFiltered_df5, attach_rows4, segsum_tbl4]

/-- Counterexample to claim C6 as stated: on `df5`, customer 5 has a
qualifying transaction row (non-null id, timestamp and payment value 0),
yet the successful RFM table contains no row for customer 5 — the
`monetary <= 0` filter dropped it, so no frequency/monetary is reported. -/
theorem c6_cex_zero_payment_customer_missing :
    fiberOf (rfm_data df5) 5 ≠ []
      ∧ compute_rfm df5 = Except.ok (tbl4, seg4)
      ∧ ¬ ∃ row ∈ tbl4, row.cid = 5 := by
  refine ⟨by decide, compute_rfm_df5, ?_⟩
  intro hex
  rcases hex with ⟨row, hrow, hcid⟩
  exact absurd hcid ((by decide : ∀ r ∈ tbl4, r.cid ≠ 5) row hrow)

/-! ### Rank (method="first") lemmas -/

theorem rfirst_length (xs : List ℚ) : (rfirst xs).length = xs.length := by
  simp [rfirst]

theorem rfirst_strict (xs : List ℚ) (i j : Nat) (_hi : i < xs.length) (hj : j < xs.length)
    (hkey : xs.getD i 0 < xs.getD j 0 ∨ (xs.getD i 0 = xs.getD j 0 ∧ i ≤ j))
    (hnkey : ¬ (xs.getD j 0 < xs.getD i 0 ∨ (xs.getD j 0 = xs.getD i 0 ∧ j ≤ i))) :
    (List.range xs.length).countP (fun k =>
        xs.getD k 0 < xs.getD i 0 ∨ (xs.getD k 0 = xs.getD i 0 ∧ k ≤ i))
      < (List.range xs.length).countP (fun k =>
        xs.getD k 0 < xs.getD j 0 ∨ (xs.getD k 0 = xs.getD j 0 ∧ k ≤ j)) := by
  apply countP_lt_countP _ _ _ ?mono j (List.mem_range.mpr hj) ?qj ?pj
  case mono =>
    intro k _ hk
    have hk' := of_decide_eq_true hk
    apply decide_eq_true
    rcases hk' with hlt | ⟨heq, hle⟩
    · rcases hkey with h2 | ⟨h2, _⟩
      · exact Or.inl (lt_trans hlt h2)
      · exact Or.inl (h2 ▸ hlt)
    · rcases hkey with h2 | ⟨h2, hle2⟩
      · exact Or.inl (heq ▸ h2)
      · exact Or.inr ⟨heq.trans h2, le_trans hle hle2⟩
  case qj =>
    apply decide_eq_true
    exact Or.inr ⟨rfl, le_refl j⟩
  case pj =>
    apply decide_eq_false
    exact hnkey

theorem rfirst_nodup (xs : List ℚ) : (rfirst xs).Nodup := by
  rw [rfirst]
  apply List.Nodup.map_on _ (List.nodup_range _)
  intro i hi j hj heq
  have hi' := List.mem_range.mp hi
  have hj' := List.mem_range.mp hj
  by_contra hne
  rcases lt_trichotomy (xs.getD i 0) (xs.getD j 0) with hlt | heqv | hgt
  · have h := rfirst_strict xs i j hi' hj' (Or.inl hlt) ?_
    · omega
    · intro hc
      rcases hc with hc | ⟨hc, _⟩
      · exact absurd hlt (lt_asymm hc)
      · exact absurd hc (ne_of_gt hlt)
  · rcases Nat.lt_or_ge i j with hij | hij
    · have h := rfirst_strict xs i j hi' hj' (Or.inr ⟨heqv, le_of_lt hij⟩) ?_
      · omega
      · intro hc
        rcases hc with hc | ⟨_, hc⟩
        · exact absurd (heqv ▸ hc) (lt_irrefl _)
        · omega
    · have hij' : j < i := by omega
      have h := rfirst_strict xs j i hj' hi' (Or.inr ⟨heqv.symm, le_of_lt hij'⟩) ?_
      · omega
      · intro hc
        rcases hc with hc | ⟨_, hc⟩
        · exact absurd (heqv ▸ hc) (lt_irrefl _)
        · omega
  · have h := rfirst_strict xs j i hj' hi' (Or.inl hgt) ?_
    · omega
    · intro hc
      rcases hc with hc | ⟨hc, _⟩
      · exact absurd hgt (lt_asymm hc)
      · exact absurd hc (ne_of_gt hgt)

theorem rfirst_perm (xs : List ℚ) : (rfirst xs).Perm (List.range' 1 xs.length) := by
  apply List.Subperm.perm_of_length_le
  · apply (rfirst_nodup xs).subperm
    intro y hy
    rw [rfirst] at hy
    rcases List.mem_map.mp hy with ⟨i, hi, rfl⟩
    have h1 : 0 < (List.range xs.length).countP (fun k =>
        xs.getD k 0 < xs.getD i 0 ∨ (xs.getD k 0 = xs.getD i 0 ∧ k ≤ i)) := by
      apply List.countP_pos_iff.mpr
      exact ⟨i, hi, decide_eq_true (Or.inr ⟨rfl, le_refl i⟩)⟩
    have h2 : (List.range xs.length).countP (fun k =>
        xs.getD k 0 < xs.getD i 0 ∨ (xs.getD k 0 = xs.getD i 0 ∧ k ≤ i)) ≤ xs.length := by
      calc (List.range xs.length).countP _ ≤ (List.range xs.length).length :=
            List.countP_le_length _
        _ = xs.length := List.length_range _
    exact List.mem_range'_1.mpr ⟨h1, by omega⟩
  · rw [List.length_range', rfirst_length]

theorem rfirstQ_length (xs : List ℚ) : (rfirstQ xs).length = xs.length := by
  rw [rfirstQ, List.length_map, rfirst_length]

theorem rfirstQ_sorted (xs : List ℚ) :
    List.insertionSort (· ≤ ·) (rfirstQ xs)
      = (List.range' 1 xs.length).map (fun k : ℕ => (k : ℚ)) := by
  exact List.eq_of_perm_of_sorted
    ((List.perm_insertionSort _ _).trans ((rfirst_perm xs).map _))
    (List.sorted_insertionSort _ _)
    (List.Pairwise.map _
      (fun a b hab => by exact_mod_cast Nat.le_of_lt hab)
      (List.pairwise_lt_range' 1 xs.length))

theorem quantile_rankSorted (n : Nat) (q : ℚ) (hn : 1 ≤ n) (hq0 : 0 ≤ q) (hq1 : q ≤ 1) :
    quantileOfSorted ((List.range' 1 n).map (fun k : ℕ => (k : ℚ))) q
      = 1 + q * ((n : ℚ) - 1) := by
  have hn1 : (1 : ℚ) ≤ (n : ℚ) := by exact_mod_cast hn
  have hlen : ((List.range' 1 n).map (fun k : ℕ => (k : ℚ))).length = n := by
    rw [List.length_map, List.length_range']
  have hget : ∀ k, k < n → ∀ d, ((List.range' 1 n).map (fun k : ℕ => (k : ℚ))).getD k d
      = (k : ℚ) + 1 := by
    intro k hk d
    have hk2 : k < ((List.range' 1 n).map (fun k : ℕ => (k : ℚ))).length := by
      rw [hlen]
      exact hk
    rw [List.getD_eq_getElem?_getD, List.getElem?_eq_getElem hk2]
    show (((List.range' 1 n).map (fun k : ℕ => (k : ℚ)))[k] : ℚ) = (k : ℚ) + 1
    rw [List.getElem_map, List.getElem_range']
    push_cast
    ring
  have hb0 : (0:ℚ) ≤ q * ((n:ℚ) - 1) := mul_nonneg hq0 (by linarith)
  have hb1 : q * ((n:ℚ) - 1) ≤ (n:ℚ) - 1 := by nlinarith
  have hfl0 : 0 ≤ ⌊q * ((n:ℚ) - 1)⌋ := Int.floor_nonneg.mpr hb0
  have hfl1 : ⌊q * ((n:ℚ) - 1)⌋ ≤ (n:ℤ) - 1 := by
    calc ⌊q * ((n:ℚ) - 1)⌋ ≤ ⌊(n:ℚ) - 1⌋ := Int.floor_le_floor hb1
      _ = (n:ℤ) - 1 := by
          rw [show ((n:ℚ) - 1) = (((n:ℤ) - 1 : ℤ) : ℚ) by push_cast; ring, Int.floor_intCast]
  have htn : ((⌊q * ((n:ℚ) - 1)⌋.toNat : ℤ)) = ⌊q * ((n:ℚ) - 1)⌋ := Int.toNat_of_nonneg hfl0
  have htn2 : ⌊q * ((n:ℚ) - 1)⌋.toNat ≤ n - 1 := by omega
  have hcastq : ((⌊q * ((n:ℚ) - 1)⌋.toNat : ℕ) : ℚ) = ((⌊q * ((n:ℚ) - 1)⌋ : ℤ) : ℚ) := by
    exact_mod_cast congrArg (fun z : ℤ => (z : ℚ)) htn
  have h2 : ((n - 1 : ℕ) : ℚ) = (n : ℚ) - 1 := by
    rw [Nat.cast_sub hn, Nat.cast_one]
  simp only [quantileOfSorted, hlen]
  rcases Nat.lt_or_ge (⌊q * ((n:ℚ) - 1)⌋.toNat + 1) n with hcase | hcase
  · rw [hget _ (by omega) 0, hget _ hcase _]
    push_cast
    ring
  · have he : ⌊q * ((n:ℚ) - 1)⌋.toNat = n - 1 := by omega
    have hposval : q * ((n:ℚ) - 1) = ((n - 1 : ℕ) : ℚ) := by
      have h1 : ((⌊q * ((n:ℚ) - 1)⌋ : ℤ) : ℚ) ≤ q * ((n:ℚ) - 1) := Int.floor_le _
      rw [← hcastq, he, h2] at h1
      rw [h2]
      linarith
    have hout : ∀ d, ((List.range' 1 n).map (fun k : ℕ => (k : ℚ))).getD (n - 1 + 1) d = d := by
      intro d
      rw [List.getD_eq_getElem?_getD, List.getElem?_eq_none (by rw [hlen]; omega)]
      rfl
    rw [he, hget (n - 1) (by omega) 0, hout _, hposval, h2]
    ring

/-! ### Quantile edges of ranked columns -/

theorem quantileEdges_length (xs : List ℚ) : (quantileEdges xs).length = 5 := by
  simp [quantileEdges, qProbs]

theorem quantileEdges_rank (xs : List ℚ) (hn : 1 ≤ xs.length) :
    quantileEdges (rfirstQ xs)
      = [1 + 0 * ((xs.length : ℚ) - 1), 1 + (1/4) * ((xs.length : ℚ) - 1),
         1 + (1/2) * ((xs.length : ℚ) - 1), 1 + (3/4) * ((xs.length : ℚ) - 1),
         1 + 1 * ((xs.length : ℚ) - 1)] := by
  rw [quantileEdges, rfirstQ_sorted, qProbs]
  simp only [List.map_cons, List.map_nil]
  rw [quantile_rankSorted xs.length 0 hn (by norm_num) (by norm_num),
    quantile_rankSorted xs.length (1/4) hn (by norm_num) (by norm_num),
    quantile_rankSorted xs.length (1/2) hn (by norm_num) (by norm_num),
    quantile_rankSorted xs.length (3/4) hn (by norm_num) (by norm_num),
    quantile_rankSorted xs.length 1 hn (by norm_num) (by norm_num)]

theorem quantileEdges_rank_nodup (xs : List ℚ) (hn : 2 ≤ xs.length) :
    (quantileEdges (rfirstQ xs)).Nodup := by
  rw [quantileEdges_rank xs (by omega)]
  have hd : (0:ℚ) < (xs.length : ℚ) - 1 := by
    have h2 : (2:ℚ) ≤ (xs.length : ℚ) := by exact_mod_cast hn
    linarith
  apply List.Pairwise.imp (fun h => ne_of_lt h)
  refine List.Pairwise.cons ?_ (List.Pairwise.cons ?_ (List.Pairwise.cons ?_
    (List.Pairwise.cons ?_ (List.pairwise_singleton _ _))))
  · intro a ha
    simp only [List.mem_cons, List.mem_singleton, List.not_mem_nil, or_false] at ha
    rcases ha with rfl | rfl | rfl | rfl <;> nlinarith [hd]
  · intro a ha
    simp only [List.mem_cons, List.mem_singleton, List.not_mem_nil, or_false] at ha
    rcases ha with rfl | rfl | rfl <;> nlinarith [hd]
  · intro a ha
    simp only [List.mem_cons, List.mem_singleton, List.not_mem_nil, or_false] at ha
    rcases ha with rfl | rfl <;> nlinarith [hd]
  · intro a ha
    simp only [List.mem_singleton] at ha
    subst ha
    nlinarith [hd]

theorem qcut4_rank_ok (xs : List ℚ) (labels : List Int) (hl : labels.length = 4)
    (hn : 2 ≤ xs.length) :
    ∃ ys, qcut4 (rfirstQ xs) labels true = Except.ok ys := by
  have hne : rfirstQ xs ≠ [] := by
    intro h
    have h2 := rfirstQ_length xs
    rw [h] at h2
    simp at h2
    omega
  have hnd := quantileEdges_rank_nodup xs hn
  have hded : (quantileEdges (rfirstQ xs)).dedup = quantileEdges (rfirstQ xs) :=
    List.dedup_eq_self.mpr hnd
  refine ⟨(rfirstQ xs).map
    (fun v => labels.getD (binIdx (quantileEdges (rfirstQ xs)) v) 0), ?_⟩
  simp only [qcut4, hded, quantileEdges_length, hl, if_neg hne]
  norm_num

/-! ### Generic facts about successful cuts -/

theorem qcut4_ok_inv {xs : List ℚ} {labels : List Int} {d : Bool} {ys : List Int}
    (h : qcut4 xs labels d = Except.ok ys) :
    ys = xs.map (fun v => labels.getD (binIdx ((quantileEdges xs).dedup) v) 0)
      ∧ labels.length + 1 = ((quantileEdges xs).dedup).length := by
  simp only [qcut4] at h
  split_ifs at h with h1 h2 h3
  constructor
  · injection h with h'
    exact h'.symm
  · exact not_ne_iff.mp h3

theorem qcut4_ok_length {xs : List ℚ} {labels : List Int} {d : Bool} {ys : List Int}
    (h : qcut4 xs labels d = Except.ok ys) : ys.length = xs.length := by
  rcases qcut4_ok_inv h with ⟨hys, _⟩
  rw [hys, List.length_map]

theorem qcut4_ok_mem {xs : List ℚ} {labels : List Int} {d : Bool} {ys : List Int}
    (h : qcut4 xs labels d = Except.ok ys) (hl : 1 ≤ labels.length) :
    ∀ y ∈ ys, y ∈ labels := by
  rcases qcut4_ok_inv h with ⟨hys, hlen⟩
  subst hys
  intro y hy
  rcases List.mem_map.mp hy with ⟨v, _, rfl⟩
  have hidx : binIdx ((quantileEdges xs).dedup) v
      ≤ ((quantileEdges xs).dedup).length - 2 := by
    calc binIdx ((quantileEdges xs).dedup) v
        ≤ ((((quantileEdges xs).dedup).drop 1).dropLast).length := List.countP_le_length _
      _ = ((quantileEdges xs).dedup).length - 2 := by
          rw [List.length_dropLast, List.length_drop]
          omega
  have hlt : binIdx ((quantileEdges xs).dedup) v < labels.length := by omega
  rw [List.getD_eq_getElem?_getD, List.getElem?_eq_getElem hlt]
  exact List.getElem_mem hlt

theorem getD_mem_of_lt {l : List Int} {i : Nat} (h : i < l.length) : l.getD i 0 ∈ l := by
  rw [List.getD_eq_getElem?_getD, List.getElem?_eq_getElem h]
  exact List.getElem_mem h

theorem mem_labelsFM_bounds {y : Int} (hy : y ∈ [(1:Int), 2, 3, 4]) : 1 ≤ y ∧ y ≤ 4 := by
  simp only [List.mem_cons, List.mem_singleton, List.not_mem_nil, or_false] at hy
  rcases hy with rfl | rfl | rfl | rfl <;> norm_num

theorem mem_labelsR_bounds {y : Int} (hy : y ∈ [(4:Int), 3, 2, 1]) : 1 ≤ y ∧ y ≤ 4 := by
  simp only [List.mem_cons, List.mem_singleton, List.not_mem_nil, or_false] at hy
  rcases hy with rfl | rfl | rfl | rfl <;> norm_num

theorem toString_len_one {y : Int} (h1 : 1 ≤ y) (h4 : y ≤ 4) : (toString y).length = 1 := by
  interval_cases y <;> rfl

theorem attachScores_scores {rows : List RfmRow} {rs fs ms : List Int} {x : RfmScored}
    (hx : x ∈ attachScores rows rs fs ms) :
    ∃ i, i < rows.length ∧ x.R_score = rs.getD i 0 ∧ x.F_score = fs.getD i 0
      ∧ x.M_score = ms.getD i 0
      ∧ x.RFM_score = toString x.R_score ++ toString x.F_score ++ toString x.M_score := by
  rcases List.mem_iff_getElem.mp hx with ⟨i, hi2, rfl⟩
  have hi : i < rows.length := by
    rw [attachScores_length] at hi2
    exact hi2
  rw [attachScores_getElem rows rs fs ms i hi hi2]
  exact ⟨i, hi, rfl, rfl, rfl, rfl⟩

/-! ### Claim C10 -/

/-- Claim C10: with at least 4 customers surviving the `monetary > 0`
filter, the first-method ranks of the frequency and monetary columns are
pairwise distinct, the quantile boundaries computed from them are pairwise
distinct (so the `duplicates="drop"` branch never actually drops anything),
the frequency and monetary cuts succeed with every score in 1..4, and on a
successful run every row's `RFM_score` is exactly the three-digit
concatenation of its `R_score`, `F_score` and `M_score`. -/
theorem c10_rank_cut_wellformed (df : List Row) (h4 : 4 ≤ (rfmFiltered df).length) :
    (rfirst ((rfmFiltered df).map (fun r => (r.frequency : ℚ)))).Nodup
    ∧ (rfirst ((rfmFiltered df).map (fun r => r.monetary))).Nodup
    ∧ (quantileEdges (freqQ df)).Nodup
    ∧ (quantileEdges (monQ df)).Nodup
    ∧ (quantileEdges (freqQ df)).dedup = quantileEdges (freqQ df)
    ∧ (quantileEdges (monQ df)).dedup = quantileEdges (monQ df)
    ∧ (∃ fs, qcut4 (freqQ df) [1, 2, 3, 4] true = Except.ok fs
        ∧ ∀ y ∈ fs, 1 ≤ y ∧ y ≤ 4)
    ∧ (∃ ms, qcut4 (monQ df) [1, 2, 3, 4] true = Except.ok ms
        ∧ ∀ y ∈ ms, 1 ≤ y ∧ y ≤ 4)
    ∧ (∀ tbl seg, compute_rfm df = Except.ok (tbl, seg) → ∀ row ∈ tbl,
        (1 ≤ row.R_score ∧ row.R_score ≤ 4)
        ∧ (1 ≤ row.F_score ∧ row.F_score ≤ 4)
        ∧ (1 ≤ row.M_score ∧ row.M_score ≤ 4)
        ∧ row.RFM_score = toString row.R_score ++ toString row.F_score ++ toString row.M_score
        ∧ row.RFM_score.length = 3) := by
  have hfnd : (quantileEdges (freqQ df)).Nodup := by
    rw [freqQ]
    apply quantileEdges_rank_nodup
    rw [List.length_map]
    omega
  have hmnd : (quantileEdges (monQ df)).Nodup := by
    rw [monQ]
    apply quantileEdges_rank_nodup
    rw [List.length_map]
    omega
  refine ⟨rfirst_nodup _, rfirst_nodup _, hfnd, hmnd,
    List.dedup_eq_self.mpr hfnd, List.dedup_eq_self.mpr hmnd, ?_, ?_, ?_⟩
  · rw [freqQ]
    rcases qcut4_rank_ok ((rfmFiltered df).map (fun r => (r.frequency : ℚ))) [1, 2, 3, 4]
      rfl (by rw [List.length_map]; omega) with ⟨fs0, hfs0⟩
    exact ⟨fs0, hfs0, fun y hy => mem_labelsFM_bounds (qcut4_ok_mem hfs0 (by norm_num) y hy)⟩
  · rw [monQ]
    rcases qcut4_rank_ok ((rfmFiltered df).map (fun r => r.monetary)) [1, 2, 3, 4]
      rfl (by rw [List.length_map]; omega) with ⟨ms0, hms0⟩
    exact ⟨ms0, hms0, fun y hy => mem_labelsFM_bounds (qcut4_ok_mem hms0 (by norm_num) y hy)⟩
  · intro tbl seg h row hrow
    rcases compute_rfm_ok h with ⟨rs, fs, ms, hrs, hfs, hms, htbl, _⟩
    subst htbl
    rcases attachScores_scores hrow with ⟨i, hi, hR, hF, hM, hstr⟩
    have hrslen : rs.length = (rfmFiltered df).length := by
      rw [qcut4_ok_length hrs, recencyQ, List.length_map]
    have hfslen : fs.length = (rfmFiltered df).length := by
      rw [qcut4_ok_length hfs, freqQ, rfirstQ_length, List.length_map]
    have hmslen : ms.length = (rfmFiltered df).length := by
      rw [qcut4_ok_length hms, monQ, rfirstQ_length, List.length_map]
    have hRb : 1 ≤ row.R_score ∧ row.R_score ≤ 4 := by
      rw [hR]
      exact mem_labelsR_bounds (qcut4_ok_mem hrs (by norm_num) _
        (getD_mem_of_lt (by omega)))
    have hFb : 1 ≤ row.F_score ∧ row.F_score ≤ 4 := by
      rw [hF]
      exact mem_labelsFM_bounds (qcut4_ok_mem hfs (by norm_num) _
        (getD_mem_of_lt (by omega)))
    have hMb : 1 ≤ row.M_score ∧ row.M_score ≤ 4 := by
      rw [hM]
      exact mem_labelsFM_bounds (qcut4_ok_mem hms (by norm_num) _
        (getD_mem_of_lt (by omega)))
    refine ⟨hRb, hFb, hMb, hstr, ?_⟩
    rw [hstr, String.length_append, String.length_append,
      toString_len_one hRb.1 hRb.2, toString_len_one hFb.1 hFb.2,
      toString_len_one hMb.1 hMb.2]

/-- Witness for C10: the frequency-cut quantile boundaries at `df4` are
pairwise distinct. -/
theorem c10_rank_cut_wellformed_witness : (quantileEdges (freqQ df4)).Nodup :=
  (c10_rank_cut_wellformed df4 (by rw [rfmFiltered_df4]; decide)).2.2.1

/-! ### Claim C4 evaluation lemmas -/

theorem rfmBase_dfEqRec : rfmBase dfEqRec
    = [⟨1, 10, 1, 1, 1⟩, ⟨2, 10, 1, 1, 1⟩, ⟨3, 10, 1, 1, 1⟩, ⟨4, 10, 1, 1, 1⟩] := by
  have h : rfmBase dfEqRec = [⟨1, 10, 1, [(1:ℚ)].sum, 1⟩, ⟨2, 10, 1, [(1:ℚ)].sum, 1⟩,
      ⟨3, 10, 1, [(1:ℚ)].sum, 1⟩, ⟨4, 10, 1, [(1:ℚ)].sum, 1⟩] := rfl
  rw [h]
  norm_num

theorem recencyQ_dfEqRec : recencyQ dfEqRec = [1, 1, 1, 1] := by
  rw [recencyQ, rfmFiltered, rfmBase_dfEqRec]
  norm_num

theorem edges_const1 : quantileEdges [(1:ℚ), 1, 1, 1] = [1, 1, 1, 1, 1] := by
  rw [quantileEdges]
  have hs : List.insertionSort (· ≤ ·) [(1:ℚ), 1, 1, 1] = [1, 1, 1, 1] := by decide
  rw [hs, qProbs]
  have e0 : quantileOfSorted [(1:ℚ), 1, 1, 1] 0 = 1 := by
    rw [quantileOfSorted_eval _ _ 0 (by norm_num)]
    norm_num
  have e1 : quantileOfSorted [(1:ℚ), 1, 1, 1] (1/4) = 1 := by
    rw [quantileOfSorted_eval _ _ 0 (by norm_num [Int.floor_eq_iff])]
    norm_num
  have e2 : quantileOfSorted [(1:ℚ), 1, 1, 1] (1/2) = 1 := by
    rw [quantileOfSorted_eval _ _ 1 (by norm_num [Int.floor_eq_iff])]
    norm_num
  have e3 : quantileOfSorted [(1:ℚ), 1, 1, 1] (3/4) = 1 := by
    rw [quantileOfSorted_eval _ _ 2 (by norm_num [Int.floor_eq_iff])]
    norm_num
  have e4 : quantileOfSorted [(1:ℚ), 1, 1, 1] 1 = 1 := by
    rw [quantileOfSorted_eval _ _ 3 (by norm_num [Int.floor_eq_iff])]
    norm_num
  simp only [List.map_cons, List.map_nil]
  rw [e0, e1, e2, e3, e4]

theorem qcutR_const1 : qcut4 [(1:ℚ), 1, 1, 1] [4, 3, 2, 1] false
    = Except.error "Bin edges must be unique" := by
  have hd : ([1, 1, 1, 1, 1] : List ℚ).dedup = [1] := by decide
  simp only [qcut4, edges_const1, hd]
  norm_num

/-- On four customers purchasing the same day, all recencies coincide and
the recency cut raises. -/
theorem compute_rfm_dfEqRec : compute_rfm dfEqRec
    = Except.error "Bin edges must be unique" := by
  have hR : qcut4 (recencyQ dfEqRec) [4, 3, 2, 1] false
      = Except.error "Bin edges must be unique" := by
    rw [recencyQ_dfEqRec]
    exact qcutR_const1
  simp only [compute_rfm, hR]

theorem rfirstQ_single : rfirstQ [(5:ℚ)] = [1] := by
  have h : rfirstQ [(5:ℚ)] = [((1:ℕ) : ℚ)] := rfl
  rw [h]
  norm_num

theorem edges_single : quantileEdges [(1:ℚ)] = [1, 1, 1, 1, 1] := by
  rw [quantileEdges]
  have hs : List.insertionSort (· ≤ ·) [(1:ℚ)] = [1] := by decide
  rw [hs, qProbs]
  have e0 : quantileOfSorted [(1:ℚ)] 0 = 1 := by
    rw [quantileOfSorted_eval _ _ 0 (by norm_num)]
    norm_num
  have e1 : quantileOfSorted [(1:ℚ)] (1/4) = 1 := by
    rw [quantileOfSorted_eval _ _ 0 (by norm_num)]
    norm_num
  have e2 : quantileOfSorted [(1:ℚ)] (1/2) = 1 := by
    rw [quantileOfSorted_eval _ _ 0 (by norm_num)]
    norm_num
  have e3 : quantileOfSorted [(1:ℚ)] (3/4) = 1 := by
    rw [quantileOfSorted_eval _ _ 0 (by norm_num)]
    norm_num
  have e4 : quantileOfSorted [(1:ℚ)] 1 = 1 := by
    rw [quantileOfSorted_eval _ _ 0 (by norm_num)]
    norm_num
  simp only [List.map_cons, List.map_nil]
  rw [e0, e1, e2, e3, e4]

/-- Counterexample to claim C4 as stated: a frequency/monetary cut on a
degenerate (single-customer) column does collapse its boundaries and still
fails — `duplicates="drop"` avoids only the duplicate-edge error, after
which the explicit four-label list no longer matches the bin count. -/
theorem c4_cex_fm_cut_errors_on_collapse :
    qcut4 (rfirstQ [(5:ℚ)]) [1, 2, 3, 4] true
      = Except.error "Bin labels must be one fewer than the number of bin edges" := by
  rw [rfirstQ_single]
  have hd : ([1, 1, 1, 1, 1] : List ℚ).dedup = [1] := by decide
  simp only [qcut4, edges_single, hd]
  norm_num

/-- Claim C4 (amended): the frequency and monetary cuts pass
`duplicates="drop"`, so they can never raise the duplicate-bin-edge error
(collapsing boundaries instead lead to the label-count error, which inside
`compute_rfm` is unreachable because ranked columns of two or more
customers have distinct boundaries); the recency cut has no guard: there is
a four-customer input on which it raises the duplicate-bin-edge error, and
whenever the recency boundaries are pairwise distinct it succeeds. -/
theorem c4_recency_unguarded :
    (∀ xs : List ℚ, ∀ labels : List Int,
        qcut4 xs labels true ≠ Except.error "Bin edges must be unique")
    ∧ compute_rfm dfEqRec = Except.error "Bin edges must be unique"
    ∧ (∀ df : List Row, recencyQ df ≠ [] → (quantileEdges (recencyQ df)).Nodup →
        ∃ rs, qcut4 (recencyQ df) [4, 3, 2, 1] false = Except.ok rs)
    ∧ (∀ xs : List ℚ, 2 ≤ xs.length →
        ∃ ys, qcut4 (rfirstQ xs) [1, 2, 3, 4] true = Except.ok ys) := by
  refine ⟨?_, compute_rfm_dfEqRec, ?_, ?_⟩
  · intro xs labels h
    simp only [qcut4] at h
    split_ifs at h with h1 h2 h3
    · injection h with h'
      exact absurd h' (by decide)
    · exact absurd h2.2 (by decide)
    · injection h with h'
      exact absurd h' (by decide)
  · intro df hne hnd
    have hded := List.dedup_eq_self.mpr hnd
    refine ⟨(recencyQ df).map (fun v =>
      [(4:Int), 3, 2, 1].getD (binIdx (quantileEdges (recencyQ df)) v) 0), ?_⟩
    simp only [qcut4, hded, quantileEdges_length, if_neg hne]
    norm_num
  · intro xs hn
    exact qcut4_rank_ok xs [1, 2, 3, 4] rfl hn

/-- Witness for C4: on `df4` the recency boundaries are distinct and the
recency cut succeeds. -/
theorem c4_recency_unguarded_witness :
    ∃ rs, qcut4 (recencyQ df4) [4, 3, 2, 1] false = Except.ok rs :=
  c4_recency_unguarded.2.2.1 df4
    (by rw [recencyQ_df4]; decide)
    (by rw [recencyQ_df4, edges_rec4]; norm_num)
